import Mathlib

/-!
Shallow embedding of the SMS delivery engine in `src/sms_service.py`
(class `SMSService`): the error classifier `_is_retryable_error`, the
segmenter `split_long_message`, the retrying executor `_send_single_sms`,
the per-recipient coordinator `send_sms` and the bulk coordinator
`send_bulk_sms`.  Python strings are modelled as `List Char`, the Twilio
transport as an oracle giving the outcome of each successive transport
call, float delays as rationals, and the Python exception path in
segmentation (a zero step passed to `range`) as `Except.error`.
-/

namespace SmsSpec

/-! ## Error classifier (`_is_retryable_error`, sms_service.py lines 223-251) -/

/-- The fixed terminal codes of `_is_retryable_error`: invalid destination
(21211), destination unreachable (21214), permission not enabled (21408),
recipient opted out (21610). -/
def non_retryable_codes : List Int := [21211, 21214, 21408, 21610]

/-- The fixed retryable codes of `_is_retryable_error`: rate limit (20429),
upstream internal error (20500), upstream service unavailable (20503). -/
def retryable_codes : List Int := [20429, 20500, 20503]

/-- `_is_retryable_error`, taking the error's `code` and HTTP `status`:
terminal codes map to `false`; otherwise the result is
`code in retryable_codes or status >= 500`. -/
def is_retryable_error (code : Int) (status : Int) : Bool :=
  if non_retryable_codes.contains code then false
  else retryable_codes.contains code || decide (status ≥ 500)

/-! ## Segmenter (`split_long_message`, sms_service.py lines 293-351) -/

/-- Helper for `pySplitSpace`: returns the first word of the string and the
remaining words. -/
def splitSpAux : List Char → List Char × List (List Char)
  | [] => ([], [])
  | c :: rest =>
    let p := splitSpAux rest
    if c = ' ' then ([], p.1 :: p.2) else (c :: p.1, p.2)

/-- Python `message.split(' ')`: split on every single space character,
keeping empty words (so `"".split(' ') = [""]`). -/
def pySplitSpace (s : List Char) : List (List Char) :=
  (splitSpAux s).1 :: (splitSpAux s).2

/-- Python `str.isspace()` whitespace, the exact character set removed by
a parameterless `str.strip()`: U+0009–U+000D, U+001C–U+001F, the space,
U+0085, U+00A0, U+1680, U+2000–U+200A, U+2028, U+2029, U+202F, U+205F and
U+3000. -/
def isPySpace (c : Char) : Bool :=
  c = ' ' || (0x09 ≤ c.toNat && c.toNat ≤ 0x0d) ||
  (0x1c ≤ c.toNat && c.toNat ≤ 0x1f) || c.toNat = 0x85 || c.toNat = 0xa0 ||
  c.toNat = 0x1680 || (0x2000 ≤ c.toNat && c.toNat ≤ 0x200a) ||
  c.toNat = 0x2028 || c.toNat = 0x2029 || c.toNat = 0x202f ||
  c.toNat = 0x205f || c.toNat = 0x3000

/-- Python `s.strip()`: remove leading and trailing whitespace. -/
def pyStrip (s : List Char) : List Char :=
  ((s.dropWhile isPySpace).reverse.dropWhile isPySpace).reverse

/-- The hard word slicing `word[i:i+eff] for i in range(0, len(word), eff)`
for a positive step `eff`; the fuel argument (instantiated with the word
length, an upper bound on the number of slices when `eff ≥ 1`) makes the
recursion structural. -/
def chunkListFuel : Nat → List Char → Nat → List (List Char)
  | _, [], _ => []
  | 0, _, _ => []
  | fuel + 1, w, eff => w.take eff :: chunkListFuel fuel (w.drop eff) eff

/-- One iteration of the word loop of `split_long_message`, acting on the
state `(chunks, current_chunk)`.  A word longer than `effective_max_length`
flushes the current chunk and is hard-sliced via
`range(0, len(word), effective_max_length)`; Python raises `ValueError`
when that step is zero, and produces an empty range when it is negative.
Otherwise the word is appended to the current chunk if the result still
fits, and starts a fresh chunk if not. -/
def stepWord (eff : Int) (st : List (List Char) × List Char) (w : List Char) :
    Except String (List (List Char) × List Char) :=
  if (w.length : Int) > eff then
    if eff = 0 then Except.error "ValueError: range() arg 3 must not be zero"
    else if eff < 0 then
      Except.ok (if st.2.isEmpty then st.1 else st.1 ++ [pyStrip st.2], [])
    else
      Except.ok ((if st.2.isEmpty then st.1 else st.1 ++ [pyStrip st.2]) ++
        chunkListFuel w.length w eff.toNat, [])
  else
    if ((if st.2.isEmpty then w else st.2 ++ ' ' :: w).length : Int) ≤ eff then
      Except.ok (st.1, if st.2.isEmpty then w else st.2 ++ ' ' :: w)
    else if st.2.isEmpty then Except.ok (st.1, w)
    else Except.ok (st.1 ++ [pyStrip st.2], w)

/-- The word loop of `split_long_message`: fold `stepWord` over the words,
propagating the `ValueError` exception. -/
def splitFold (eff : Int) :
    List (List Char) × List Char → List (List Char) →
      Except String (List (List Char) × List Char)
  | st, [] => Except.ok st
  | st, w :: ws =>
    match stepWord eff st w with
    | Except.error e => Except.error e
    | Except.ok st1 => splitFold eff st1 ws

/-- The post-loop flush of `split_long_message`: append the stripped final
chunk when it is non-empty. -/
def finishChunks (st : List (List Char) × List Char) : List (List Char) :=
  if st.2.isEmpty then st.1 else st.1 ++ [pyStrip st.2]

/-- Decimal digit to character. -/
def digitChar (d : Nat) : Char := Char.ofNat (48 + d)

/-- Decimal rendering of a positive natural number, most significant digit
first; the fuel argument (instantiated with the number itself) bounds the
number of digits. -/
def natDigitsAux : Nat → Nat → List Char
  | _, 0 => []
  | 0, _ => []
  | fuel + 1, n => natDigitsAux fuel (n / 10) ++ [digitChar (n % 10)]

/-- Decimal rendering of a natural number, as the f-strings of the source
produce. -/
def natDigits (n : Nat) : List Char :=
  if n = 0 then ['0'] else natDigitsAux n n

/-- The part marker `"[{i}/{total}] "` prefixed to every chunk when the
message splits into more than one segment. -/
def marker (i total : Nat) : List Char :=
  '[' :: natDigits i ++ '/' :: natDigits total ++ [']', ' ']

/-- The comprehension `[f"[{i+1}/{len(chunks)}] {chunk}" ...]`, prefixing
each chunk with its 1-based marker; `i` is the 0-based index of the next
chunk. -/
def addMarkersGo (total : Nat) : Nat → List (List Char) → List (List Char)
  | _, [] => []
  | i, c :: cs => (marker (i + 1) total ++ c) :: addMarkersGo total (i + 1) cs

/-- Add part markers when the message split into more than one chunk;
a single chunk is left unmarked. -/
def addMarkers (chunks : List (List Char)) : List (List Char) :=
  if 1 < chunks.length then addMarkersGo chunks.length 0 chunks else chunks

/-- `split_long_message` up to but not including the marker pass: a message
that fits is returned whole; otherwise the words are greedily packed into
chunks of at most `max_length - 11` characters. -/
def split_chunks (message : List Char) (max_length : Int) :
    Except String (List (List Char)) :=
  if (message.length : Int) ≤ max_length then Except.ok [message]
  else
    match splitFold (max_length - 11) ([], []) (pySplitSpace message) with
    | Except.error e => Except.error e
    | Except.ok st => Except.ok (finishChunks st)

/-- `split_long_message(message, max_length)` (sms_service.py lines
293-351): greedy word packing with an 11-character marker budget, part
markers added when more than one chunk results.  The `ValueError` raised by
`range` on a zero step is returned as `Except.error`. -/
def split_long_message (message : List Char) (max_length : Int) :
    Except String (List (List Char)) :=
  match split_chunks message max_length with
  | Except.error e => Except.error e
  | Except.ok chunks => Except.ok (addMarkers chunks)

/-- The word sequence of a string: its non-empty words under Python's
`split(' ')`.  This is the spec's notion of "word sequence" for the
segmentation round-trip property. -/
def wordsOf (s : List Char) : List (List Char) :=
  (pySplitSpace s).filter (fun w => !w.isEmpty)

/-- Join a list of segment bodies with single spaces, as the spec's
round-trip property prescribes. -/
def joinWords : List (List Char) → List Char
  | [] => []
  | [w] => w
  | w :: ws => w ++ ' ' :: joinWords ws

/-- A string whose only whitespace characters are plain spaces (so that
Python's `strip()` removes nothing but spaces from it). -/
def spacey (s : List Char) : Prop :=
  ∀ c ∈ s, isPySpace c = true → c = ' '

/-! ## Delivery executor (`_send_single_sms`, sms_service.py lines 125-221) -/

/-- Outcome of one call of the Twilio transport
(`self.client.messages.create`): a message object carrying `sid` and
`status`, a raised `TwilioRestException` carrying `code` and HTTP `status`,
or any other raised exception. -/
inductive TransportOutcome where
  | ok (sid : String) (status : String)
  | twilioErr (code : Int) (status : Int) (msg : String)
  | otherErr (msg : String)
deriving DecidableEq

/-- The result dictionary of `_send_single_sms`: success with `sid`,
`status` and `attempts`; failure with `retryable: False` after a
non-retryable `TwilioRestException`; or failure with
`"Max retries exceeded"` and `retryable: True` once attempts run out. -/
inductive SingleResult where
  | delivered (sid : String) (status : String) (attempts : Nat)
  | failedTerminal (error : String) (code : Int) (attempts : Nat)
  | failedMaxRetries (attempts : Nat)
deriving DecidableEq

/-- The `success` entry of a `_send_single_sms` result dictionary. -/
def singleSuccess : SingleResult → Bool
  | SingleResult.delivered _ _ _ => true
  | _ => false

/-- The `sid` entry of a `_send_single_sms` result dictionary (present
exactly on success, which is the only place the source reads it). -/
def singleSid : SingleResult → String
  | SingleResult.delivered s _ _ => s
  | _ => ""

/-- The `attempts` entry of a `_send_single_sms` result dictionary. -/
def singleAttempts : SingleResult → Nat
  | SingleResult.delivered _ _ n => n
  | SingleResult.failedTerminal _ _ n => n
  | SingleResult.failedMaxRetries n => n

/-- The retry loop of `_send_single_sms` (lines 158-221).  The transport is
an oracle `tr` from the global call index to the call's outcome; `idx` is
the index of the next call and is returned so that the number of transport
calls made is observable; `sleeps` records the `time.sleep(delay)` backoff
waits, with the float delay modelled as a rational.  The loop runs while
`attempt < maxRetries`; the structural `fuel` argument (instantiated with
`maxRetries`, an upper bound on the number of iterations since `attempt`
grows by one each time) only makes the recursion structural, its zero case
is unreachable from `send_single_sms`. -/
def sendSingleLoop (tr : Nat → TransportOutcome) (maxRetries : Nat) :
    Nat → Nat → ℚ → Nat → List ℚ → SingleResult × Nat × List ℚ
  | fuel, attempt, delay, idx, sleeps =>
    if attempt < maxRetries then
      match fuel with
      | 0 => (SingleResult.failedMaxRetries maxRetries, idx, sleeps)
      | fuel1 + 1 =>
        match tr idx with
        | TransportOutcome.ok sid status =>
          (SingleResult.delivered sid status (attempt + 1), idx + 1, sleeps)
        | TransportOutcome.twilioErr code stat msg =>
          if is_retryable_error code stat = false then
            (SingleResult.failedTerminal msg code (attempt + 1), idx + 1, sleeps)
          else if attempt + 1 < maxRetries then
            sendSingleLoop tr maxRetries fuel1 (attempt + 1) (delay * 2) (idx + 1)
              (sleeps ++ [delay])
          else
            sendSingleLoop tr maxRetries fuel1 (attempt + 1) delay (idx + 1) sleeps
        | TransportOutcome.otherErr _ =>
          if attempt + 1 < maxRetries then
            sendSingleLoop tr maxRetries fuel1 (attempt + 1) (delay * 2) (idx + 1)
              (sleeps ++ [delay])
          else
            sendSingleLoop tr maxRetries fuel1 (attempt + 1) delay (idx + 1) sleeps
    else (SingleResult.failedMaxRetries maxRetries, idx, sleeps)

/-- `_send_single_sms(to_number, message, max_retries, initial_delay)`: in
dry-run mode an immediate simulated success; otherwise the retry loop,
started at attempt 0 with the initial backoff delay. -/
def send_single_sms (dryRun : Bool) (tr : Nat → TransportOutcome)
    (maxRetries : Nat) (initialDelay : ℚ) (idx : Nat) :
    SingleResult × Nat × List ℚ :=
  if dryRun then (SingleResult.delivered "DRY_RUN_SID" "simulated" 1, idx, [])
  else sendSingleLoop tr maxRetries maxRetries 0 initialDelay idx []

/-! ## Per-recipient coordinator (`send_sms`, sms_service.py lines 61-123) -/

/-- The result dictionary of `send_sms`: either the `_send_single_sms`
dictionary unchanged (message fits in one SMS), or the multi-segment
success dictionary with `segments_sent`, `total_segments`, `sids` and
`details`, or the multi-segment failure dictionary with `error`,
`segments_sent`, `total_segments` and `details`. -/
inductive SmsResult where
  | single (r : SingleResult)
  | multiOk (segmentsSent totalSegments : Nat) (sids : List String)
      (details : List SingleResult)
  | multiFail (error : String) (segmentsSent totalSegments : Nat)
      (details : List SingleResult)
deriving DecidableEq

/-- The `success` entry of a `send_sms` result dictionary. -/
def smsSuccess : SmsResult → Bool
  | SmsResult.single r => singleSuccess r
  | SmsResult.multiOk _ _ _ _ => true
  | SmsResult.multiFail _ _ _ _ => false

/-- The keys of each `send_sms` result dictionary, as written literally in
the source (the dry-run dictionary's extra `dry_run` key is not
distinguished here). -/
def resultKeys : SmsResult → List String
  | SmsResult.single (SingleResult.delivered _ _ _) =>
    ["success", "to", "sid", "status", "attempts"]
  | SmsResult.single (SingleResult.failedTerminal _ _ _) =>
    ["success", "to", "error", "error_code", "attempts", "retryable"]
  | SmsResult.single (SingleResult.failedMaxRetries _) =>
    ["success", "to", "error", "attempts", "retryable"]
  | SmsResult.multiOk _ _ _ _ =>
    ["success", "to", "segments_sent", "total_segments", "sids", "details"]
  | SmsResult.multiFail _ _ _ _ =>
    ["success", "to", "error", "segments_sent", "total_segments", "details"]

/-- The `details` list of a `send_sms` result dictionary. -/
def smsDetails : SmsResult → List SingleResult
  | SmsResult.single r => [r]
  | SmsResult.multiOk _ _ _ det => det
  | SmsResult.multiFail _ _ _ det => det

/-- The f-string `f"Failed on segment {i}/{total}"`. -/
def failMsg (i total : Nat) : String :=
  "Failed on segment " ++ String.mk (natDigits i) ++ "/" ++
    String.mk (natDigits total)

/-- The segment loop of `send_sms` (lines 88-109): send each chunk in turn
with `_send_single_sms`; on the first failed segment return the failure
dictionary immediately (`segments_sent = i - 1`, where `i` is the 1-based
index of the failing segment), never touching the remaining chunks; if all
chunks succeed return the success dictionary with the ordered `sids`.
`i` is the 1-based index of the next chunk, `acc` the results so far, `idx`
the transport call index.  The 5-second inter-segment pacing sleep is not
recorded. -/
def sendSegmentsGo (dryRun : Bool) (tr : Nat → TransportOutcome)
    (maxRetries : Nat) (initialDelay : ℚ) (total : Nat) :
    Nat → List SingleResult → Nat → List (List Char) → SmsResult × Nat
  | _, acc, idx, [] =>
    (SmsResult.multiOk total total (acc.map singleSid) acc, idx)
  | i, acc, idx, _ :: rest =>
    match send_single_sms dryRun tr maxRetries initialDelay idx with
    | (r, idx1, _) =>
      if singleSuccess r then
        sendSegmentsGo dryRun tr maxRetries initialDelay total (i + 1)
          (acc ++ [r]) idx1 rest
      else
        (SmsResult.multiFail (failMsg i total) (i - 1) total (acc ++ [r]), idx1)

/-- `send_sms(to_number, message, max_retries, initial_delay)` (lines
61-123): a message longer than `max_length` is split, and the segments sent
in order with an early return on the first failure; a message that fits is
sent as a single SMS.  The second component of the result is the number of
transport calls made; a `ValueError` escaping `split_long_message`
propagates as `Except.error`. -/
def send_sms (dryRun : Bool) (tr : Nat → TransportOutcome)
    (message : List Char) (max_length : Int) (maxRetries : Nat)
    (initialDelay : ℚ) : Except String (SmsResult × Nat) :=
  if (message.length : Int) > max_length then
    match split_long_message message max_length with
    | Except.error e => Except.error e
    | Except.ok chunks =>
      Except.ok
        (sendSegmentsGo dryRun tr maxRetries initialDelay chunks.length 1 [] 0
          chunks)
  else
    match send_single_sms dryRun tr maxRetries initialDelay 0 with
    | (r, idx, _) => Except.ok (SmsResult.single r, idx)

/-! ## Bulk coordinator (`send_bulk_sms`, sms_service.py lines 253-291) -/

/-- The bulk report dictionary: `total`, `successful`, `failed`, and the
per-recipient `details` in input order. -/
structure BulkReport where
  total : Nat
  successful : Nat
  failed : Nat
  details : List SmsResult
deriving DecidableEq

/-- The recipient loop of `send_bulk_sms`: call `send_sms` for each
recipient in order (with the default initial delay 1.0), count successes
and failures, and append every outcome to `details`.  The transport oracle
`tr` gives each recipient's sequence of transport call outcomes.  Returns
`(successful, failed, details)`. -/
def bulkGo (dryRun : Bool) (tr : String → Nat → TransportOutcome)
    (message : List Char) (max_length : Int) (maxRetries : Nat) :
    List String → Except String (Nat × Nat × List SmsResult)
  | [] => Except.ok (0, 0, [])
  | p :: rest =>
    match send_sms dryRun (tr p) message max_length maxRetries 1 with
    | Except.error e => Except.error e
    | Except.ok (r, _) =>
      match bulkGo dryRun tr message max_length maxRetries rest with
      | Except.error e => Except.error e
      | Except.ok (s, f, ds) =>
        Except.ok
          (if smsSuccess r then s + 1 else s,
           if smsSuccess r then f else f + 1, r :: ds)

/-- `send_bulk_sms(recipients, message, max_retries)` (lines 253-291):
send to every recipient unconditionally, aggregating the report. -/
def send_bulk_sms (dryRun : Bool) (tr : String → Nat → TransportOutcome)
    (recipients : List String) (message : List Char) (max_length : Int)
    (maxRetries : Nat) : Except String BulkReport :=
  match bulkGo dryRun tr message max_length maxRetries recipients with
  | Except.error e => Except.error e
  | Except.ok (s, f, ds) => Except.ok ⟨recipients.length, s, f, ds⟩

/-! ## Claim C1: classification of unclassified errors -/

/-- Claim C1 counterexample: the error code 40000 with HTTP status 400 is
in neither the terminal table nor the retryable table and its status is
below 500, yet `is_retryable_error` returns `false`, not `true` as the
claim states. -/
theorem C1_counterexample :
    non_retryable_codes.contains 40000 = false ∧
    retryable_codes.contains 40000 = false ∧ (400 : Int) < 500 ∧
    is_retryable_error 40000 400 = false := by decide

/-- Claim C1 (amended): every transport error whose code is in neither the
fixed terminal table nor the fixed retryable table and whose status is
below 500 is classified as NOT retryable — unclassified errors below 500
default to terminal, not to retry. -/
theorem C1_amended (code status : Int)
    (hn : non_retryable_codes.contains code = false)
    (hr : retryable_codes.contains code = false) (hs : status < 500) :
    is_retryable_error code status = false := by
  simp only [is_retryable_error, hn, hr, Bool.false_eq_true, if_false,
    Bool.false_or, decide_eq_false_iff_not]
  omega

/-- Witness for C1: the amended theorem applied at code 40000, status
400. -/
theorem C1_witness : is_retryable_error 40000 400 = false :=
  C1_amended 40000 400 (by decide) (by decide) (by decide)

/-! ## Claim C4: totality of segmentation -/

/-- One step of the word loop cannot raise unless the effective maximum
length is zero, i.e. unless `max_length = 11`. -/
theorem stepWord_ok (eff : Int) (heff : eff ≠ 0)
    (st : List (List Char) × List Char) (w : List Char) :
    ∃ st1, stepWord eff st w = Except.ok st1 := by
  unfold stepWord
  split_ifs <;> exact ⟨_, rfl⟩

/-- The word loop of the segmenter cannot raise unless the effective
maximum length is zero. -/
theorem splitFold_ok (eff : Int) (heff : eff ≠ 0) :
    ∀ (ws : List (List Char)) (st : List (List Char) × List Char),
      ∃ st1, splitFold eff st ws = Except.ok st1 := by
  intro ws
  induction ws with
  | nil => exact fun st => ⟨st, rfl⟩
  | cons w ws ih =>
    intro st
    obtain ⟨st1, h1⟩ := stepWord_ok eff heff st w
    obtain ⟨st2, h2⟩ := ih st1
    exact ⟨st2, by simp [splitFold, h1, h2]⟩

/-- The chunking pass of the segmenter returns normally for every message
whenever `max_length ≠ 11`. -/
theorem split_chunks_total (m : List Char) (L : Int) (hL : L ≠ 11) :
    ∃ chunks, split_chunks m L = Except.ok chunks := by
  unfold split_chunks
  split_ifs with h
  · exact ⟨[m], rfl⟩
  · obtain ⟨st, hst⟩ := splitFold_ok (L - 11) (by omega) (pySplitSpace m) ([], [])
    exact ⟨finishChunks st, by rw [hst]⟩

/-- Claim C4: at `max_length = 11` the effective maximum length is zero and
the hard word slicing passes a zero step to `range`; Python raises
`ValueError` there, so segmentation is not total.  This theorem evaluates
the embedded code at the failing input: a 12-character word with
`max_length = 11`. -/
theorem C4_code_eval :
    split_long_message (List.replicate 12 'a') 11 =
      Except.error "ValueError: range() arg 3 must not be zero" := by rfl

/-! ## Claim C6: terminal errors short-circuit after one attempt -/

/-- A terminal code is classified as non-retryable. -/
theorem is_retryable_error_terminal (code stat : Int)
    (h : non_retryable_codes.contains code = true) :
    is_retryable_error code stat = false := by
  simp only [is_retryable_error, h, if_true]

/-- If the next transport call raises a non-retryable `TwilioRestException`,
the executor fails immediately: one attempt, one transport call, no backoff
sleep. -/
theorem sendSingle_terminal (tr : Nat → TransportOutcome) (maxR : Nat)
    (d : ℚ) (idx : Nat) (code stat : Int) (emsg : String) (hR : 1 ≤ maxR)
    (h0 : tr idx = TransportOutcome.twilioErr code stat emsg)
    (hterm : non_retryable_codes.contains code = true) :
    send_single_sms false tr maxR d idx =
      (SingleResult.failedTerminal emsg code 1, idx + 1, []) := by
  obtain ⟨k, rfl⟩ : ∃ k, maxR = k + 1 := ⟨maxR - 1, by omega⟩
  simp [send_single_sms, sendSingleLoop, h0,
    is_retryable_error_terminal code stat hterm]

/-- Claim C6: a transport raising an error with a terminal code (invalid
destination 21211, unreachable 21214, permission not enabled 21408, opted
out 21610) makes `_send_single_sms` return failure with `retryable=false`
after exactly 1 attempt, with exactly one transport call and no backoff
sleep. -/
theorem C6_terminal_short_circuit (tr : Nat → TransportOutcome) (maxR : Nat)
    (d : ℚ) (code stat : Int) (emsg : String) (hR : 1 ≤ maxR)
    (h0 : tr 0 = TransportOutcome.twilioErr code stat emsg)
    (hterm : non_retryable_codes.contains code = true) :
    send_single_sms false tr maxR d 0 =
      (SingleResult.failedTerminal emsg code 1, 1, []) :=
  sendSingle_terminal tr maxR d 0 code stat emsg hR h0 hterm

/-- Witness for C6: a transport that always raises code 21211 (invalid
destination), with the default `max_retries = 5`. -/
theorem C6_witness :
    send_single_sms false
        (fun _ => TransportOutcome.twilioErr 21211 400 "invalid To") 5 1 0 =
      (SingleResult.failedTerminal "invalid To" 21211 1, 1, []) :=
  C6_terminal_short_circuit _ 5 1 21211 400 "invalid To" (by decide) rfl
    (by decide)

/-! ## Claim C7: exponential backoff on retryable failures -/

/-- If the next `k` transport calls raise retryable errors and the one
after succeeds, the retry loop succeeds on attempt `attempt + k + 1`,
recording the backoff sleeps `d, d*2, d*4, ...` (`k` of them). -/
theorem sendSingle_retry_then_ok (tr : Nat → TransportOutcome) (maxR : Nat)
    (sid status : String) (codes stats : Nat → Int) (msgs : Nat → String) :
    ∀ (k attempt idx : Nat) (d : ℚ) (sleeps : List ℚ),
      attempt + k < maxR →
      (∀ j, j < k → tr (idx + j) =
        TransportOutcome.twilioErr (codes (idx + j)) (stats (idx + j))
          (msgs (idx + j))) →
      (∀ j, j < k →
        is_retryable_error (codes (idx + j)) (stats (idx + j)) = true) →
      tr (idx + k) = TransportOutcome.ok sid status →
      sendSingleLoop tr maxR (maxR - attempt) attempt d idx sleeps =
        (SingleResult.delivered sid status (attempt + k + 1), idx + k + 1,
          sleeps ++ (List.range k).map (fun j => d * 2 ^ j)) := by
  intro k
  induction k with
  | zero =>
    intro attempt idx d sleeps hlt _ _ hok
    obtain ⟨f, hf⟩ : ∃ f, maxR - attempt = f + 1 := ⟨maxR - attempt - 1, by omega⟩
    simp only [Nat.add_zero] at hok hlt
    rw [hf]
    simp [sendSingleLoop, hok, hlt]
  | succ k ih =>
    intro attempt idx d sleeps hlt hfail hretr hok
    obtain ⟨f, hf⟩ : ∃ f, maxR - attempt = f + 1 := ⟨maxR - attempt - 1, by omega⟩
    have h0 := hfail 0 (by omega)
    have hr0 := hretr 0 (by omega)
    simp only [Nat.add_zero] at h0 hr0
    have hguard : attempt < maxR := by omega
    have hstep : attempt + 1 < maxR := by omega
    have hfuel : f = maxR - (attempt + 1) := by omega
    have hrest := ih (attempt + 1) (idx + 1) (d * 2) (sleeps ++ [d])
      (by omega)
      (fun j hj => by
        have := hfail (j + 1) (by omega)
        simpa [Nat.add_assoc, Nat.add_comm 1 j] using this)
      (fun j hj => by
        have := hretr (j + 1) (by omega)
        simpa [Nat.add_assoc, Nat.add_comm 1 j] using this)
      (by
        have h : idx + 1 + k = idx + (k + 1) := by omega
        rw [h, hok])
    rw [hf]
    simp only [sendSingleLoop, if_pos hguard, h0, hr0, if_pos hstep,
      Bool.true_eq_false, if_false]
    rw [hfuel, hrest]
    simp only [Prod.mk.injEq, SingleResult.delivered.injEq]
    refine ⟨⟨trivial, trivial, by omega⟩, by omega, ?_⟩
    rw [List.range_succ_eq_map, List.map_cons, List.map_map,
      List.append_assoc]
    simp only [pow_zero, mul_one, List.singleton_append]
    congr 2
    apply List.map_congr_left
    intro a _
    simp only [Function.comp]
    rw [pow_succ]
    ring

/-- Claim C7: a transport that fails with a retryable error exactly `k`
times (`k < max_retries`) and then succeeds makes `_send_single_sms`
succeed on attempt `k + 1`, having slept exactly `k` times, with delays
`initial_delay * 2^0, ..., initial_delay * 2^(k-1)`. -/
theorem C7_backoff_doubling (tr : Nat → TransportOutcome) (maxR k : Nat)
    (d : ℚ) (sid status : String) (codes stats : Nat → Int)
    (msgs : Nat → String) (hk : k < maxR)
    (hfail : ∀ j, j < k →
      tr j = TransportOutcome.twilioErr (codes j) (stats j) (msgs j))
    (hretr : ∀ j, j < k → is_retryable_error (codes j) (stats j) = true)
    (hok : tr k = TransportOutcome.ok sid status) :
    send_single_sms false tr maxR d 0 =
      (SingleResult.delivered sid status (k + 1), k + 1,
        (List.range k).map (fun j => d * 2 ^ j)) := by
  have h := sendSingle_retry_then_ok tr maxR sid status codes stats msgs k 0 0
    d [] (by omega) (fun j hj => by simpa using hfail j hj)
    (fun j hj => by simpa using hretr j hj) (by simpa using hok)
  simpa [send_single_sms] using h

/-- Witness for C7: a transport failing twice with the rate-limit code
20429 then succeeding, `max_retries = 5`, initial delay 1: success on
attempt 3 with sleeps `[1, 2]`. -/
theorem C7_witness :
    send_single_sms false
        (fun i => if i < 2 then TransportOutcome.twilioErr 20429 429 "rate"
          else TransportOutcome.ok "SM1" "queued") 5 1 0 =
      (SingleResult.delivered "SM1" "queued" 3, 3,
        (List.range 2).map (fun j => (1 : ℚ) * 2 ^ j)) :=
  C7_backoff_doubling _ 5 2 1 "SM1" "queued" (fun _ => 20429) (fun _ => 429)
    (fun _ => "rate") (by decide) (fun j hj => by simp [hj])
    (fun j _ => by show is_retryable_error 20429 429 = true; decide) (by rfl)

/-! ## Claim C10: all-space over-length messages produce zero segments -/

/-- Splitting a string that starts with a space yields an empty first
word. -/
theorem pySplitSpace_cons_space (s : List Char) :
    pySplitSpace (' ' :: s) = [] :: pySplitSpace s := by
  simp [pySplitSpace, splitSpAux]

/-- Every word of an all-space string is empty. -/
theorem pySplitSpace_all_space :
    ∀ (m : List Char), (∀ c ∈ m, c = ' ') → ∀ w ∈ pySplitSpace m, w = [] := by
  intro m
  induction m with
  | nil => intro _ w hw; simpa [pySplitSpace, splitSpAux] using hw
  | cons c rest ih =>
    intro h w hw
    have hc : c = ' ' := h c (List.mem_cons_self c rest)
    subst hc
    rw [pySplitSpace_cons_space] at hw
    rcases List.mem_cons.mp hw with h1 | h1
    · exact h1
    · exact ih (fun c hc => h c (List.mem_cons_of_mem _ hc)) w h1

/-- The word-loop step leaves the empty state unchanged on an empty word
(for a negative effective maximum the empty word is hard-sliced into
nothing, otherwise it is absorbed into the empty current chunk). -/
theorem stepWord_empty_state (eff : Int) :
    stepWord eff ([], []) [] = Except.ok ([], []) := by
  unfold stepWord
  split_ifs with h1 h2 h3 <;> simp_all

/-- The word loop started empty stays empty over a list of empty words. -/
theorem splitFold_empty_words (eff : Int) :
    ∀ ws, (∀ w ∈ ws, w = []) →
      splitFold eff ([], []) ws = Except.ok ([], []) := by
  intro ws
  induction ws with
  | nil => intro _; rfl
  | cons w ws ih =>
    intro h
    have hw : w = [] := h w (List.mem_cons_self w ws)
    subst hw
    simp only [splitFold, stepWord_empty_state]
    exact ih fun w hw => h w (List.mem_cons_of_mem _ hw)

/-- Claim C10: a message longer than `max_length` consisting only of
spaces splits into zero segments, and `send_sms` then returns the
multi-segment success dictionary with `segments_sent = 0`, empty `sids`
and `details`, and zero transport calls made. -/
theorem C10_all_space_message (m : List Char) (L : Int) (dry : Bool)
    (tr : Nat → TransportOutcome) (maxR : Nat) (d : ℚ)
    (hsp : ∀ c ∈ m, c = ' ') (hlen : L < (m.length : Int)) :
    split_long_message m L = Except.ok [] ∧
    send_sms dry tr m L maxR d =
      Except.ok (SmsResult.multiOk 0 0 [] [], 0) := by
  have hchunks : split_chunks m L = Except.ok [] := by
    unfold split_chunks
    rw [if_neg (by omega),
      splitFold_empty_words (L - 11) (pySplitSpace m)
        (pySplitSpace_all_space m hsp)]
    rfl
  have hsplit : split_long_message m L = Except.ok [] := by
    unfold split_long_message
    rw [hchunks]
    rfl
  refine ⟨hsplit, ?_⟩
  unfold send_sms
  rw [if_pos (by omega), hsplit]
  rfl

/-- Witness for C10: thirteen spaces with `max_length = 12`. -/
theorem C10_witness :
    split_long_message (List.replicate 13 ' ') 12 = Except.ok [] ∧
    send_sms false (fun _ => TransportOutcome.otherErr "boom")
        (List.replicate 13 ' ') 12 5 1 =
      Except.ok (SmsResult.multiOk 0 0 [] [], 0) :=
  C10_all_space_message (List.replicate 13 ' ') 12 false
    (fun _ => TransportOutcome.otherErr "boom") 5 1 (by decide) (by decide)

/-! ## Shared executor lemmas for the segment loop -/

/-- If the next transport call succeeds, the executor succeeds after one
attempt, one transport call, and no backoff sleep. -/
theorem sendSingle_ok_first (tr : Nat → TransportOutcome) (maxR : Nat)
    (d : ℚ) (idx : Nat) (sid status : String) (hR : 1 ≤ maxR)
    (h0 : tr idx = TransportOutcome.ok sid status) :
    send_single_sms false tr maxR d idx =
      (SingleResult.delivered sid status 1, idx + 1, []) := by
  obtain ⟨k, rfl⟩ : ∃ k, maxR = k + 1 := ⟨maxR - 1, by omega⟩
  simp [send_single_sms, sendSingleLoop, h0]

/-- If every remaining segment's transport call succeeds (one call per
segment), the segment loop returns the multi-segment success dictionary,
appending one delivered result per segment in order. -/
theorem sendSegments_all_ok (tr : Nat → TransportOutcome) (maxR : Nat)
    (d : ℚ) (total : Nat) (sids sts : Nat → String) (hR : 1 ≤ maxR) :
    ∀ (cs : List (List Char)) (p idx : Nat) (acc : List SingleResult),
      (∀ j, j < cs.length →
        tr (idx + j) = TransportOutcome.ok (sids (idx + j)) (sts (idx + j))) →
      sendSegmentsGo false tr maxR d total p acc idx cs =
        (SmsResult.multiOk total total
          ((acc ++ (List.range cs.length).map
            (fun j => SingleResult.delivered (sids (idx + j)) (sts (idx + j)) 1)).map
              singleSid)
          (acc ++ (List.range cs.length).map
            (fun j => SingleResult.delivered (sids (idx + j)) (sts (idx + j)) 1)),
          idx + cs.length) := by
  intro cs
  induction cs with
  | nil => intro p idx acc _; simp [sendSegmentsGo]
  | cons c rest ih =>
    intro p idx acc h
    have h0 := h 0 (by simp)
    simp only [Nat.add_zero] at h0
    have hlist : acc ++ [SingleResult.delivered (sids idx) (sts idx) 1] ++
        (List.range rest.length).map
          (fun j => SingleResult.delivered (sids (idx + 1 + j)) (sts (idx + 1 + j)) 1) =
        acc ++ (List.range (rest.length + 1)).map
          (fun j => SingleResult.delivered (sids (idx + j)) (sts (idx + j)) 1) := by
      rw [List.range_succ_eq_map, List.map_cons, List.map_map,
        List.append_assoc]
      simp only [Nat.add_zero, List.singleton_append]
      congr 2
      apply List.map_congr_left
      intro a _
      have e : idx + 1 + a = idx + (a + 1) := by omega
      simp [Function.comp, e]
    simp only [sendSegmentsGo,
      sendSingle_ok_first tr maxR d idx (sids idx) (sts idx) hR h0,
      singleSuccess, if_pos]
    rw [ih (p + 1) (idx + 1) (acc ++ [SingleResult.delivered (sids idx) (sts idx) 1])
      (fun j hj => by
        have := h (j + 1) (by simpa using Nat.succ_lt_succ hj)
        have e : idx + (j + 1) = idx + 1 + j := by omega
        rwa [e] at this)]
    rw [hlist]
    simp only [Prod.mk.injEq, List.length_cons]
    exact ⟨trivial, by omega⟩

/-- If the first `s` remaining segments succeed (one call each) and the
next one fails terminally, the segment loop aborts with the multi-segment
failure dictionary: the failing 1-based index is `p + s`, the earlier
results are kept, no later segment is attempted (exactly `s + 1` further
transport calls are made), and nothing is resent. -/
theorem sendSegments_fail_at (tr : Nat → TransportOutcome) (maxR : Nat)
    (d : ℚ) (total : Nat) (sids sts : Nat → String) (code stat : Int)
    (emsg : String) (hR : 1 ≤ maxR)
    (hterm : non_retryable_codes.contains code = true) :
    ∀ (s : Nat) (cs : List (List Char)) (p idx : Nat)
      (acc : List SingleResult),
      s < cs.length →
      (∀ j, j < s →
        tr (idx + j) = TransportOutcome.ok (sids (idx + j)) (sts (idx + j))) →
      tr (idx + s) = TransportOutcome.twilioErr code stat emsg →
      sendSegmentsGo false tr maxR d total p acc idx cs =
        (SmsResult.multiFail (failMsg (p + s) total) (p + s - 1) total
          (acc ++ (List.range s).map
            (fun j => SingleResult.delivered (sids (idx + j)) (sts (idx + j)) 1) ++
            [SingleResult.failedTerminal emsg code 1]),
          idx + s + 1) := by
  intro s
  induction s with
  | zero =>
    intro cs p idx acc hlen hok hfailc
    obtain ⟨c, rest, rfl⟩ : ∃ c rest, cs = c :: rest := by
      cases cs with
      | nil => simp at hlen
      | cons c rest => exact ⟨c, rest, rfl⟩
    simp only [Nat.add_zero] at hfailc
    simp only [sendSegmentsGo,
      sendSingle_terminal tr maxR d idx code stat emsg hR hfailc hterm,
      singleSuccess]
    simp
  | succ s ih =>
    intro cs p idx acc hlen hok hfailc
    obtain ⟨c, rest, rfl⟩ : ∃ c rest, cs = c :: rest := by
      cases cs with
      | nil => simp at hlen
      | cons c rest => exact ⟨c, rest, rfl⟩
    have h0 := hok 0 (by omega)
    simp only [Nat.add_zero] at h0
    have hrest := ih rest (p + 1) (idx + 1)
      (acc ++ [SingleResult.delivered (sids idx) (sts idx) 1])
      (by simpa using hlen)
      (fun j hj => by
        have := hok (j + 1) (by omega)
        have e : idx + (j + 1) = idx + 1 + j := by omega
        rwa [e] at this)
      (by
        have e : idx + 1 + s = idx + (s + 1) := by omega
        rw [e, hfailc])
    simp only [sendSegmentsGo,
      sendSingle_ok_first tr maxR d idx (sids idx) (sts idx) hR h0,
      singleSuccess, if_pos]
    rw [hrest]
    have e1 : p + 1 + s = p + (s + 1) := by omega
    have e2 : idx + 1 + s + 1 = idx + (s + 1) + 1 := by omega
    have e3 : acc ++ [SingleResult.delivered (sids idx) (sts idx) 1] ++
        (List.range s).map
          (fun j => SingleResult.delivered (sids (idx + 1 + j)) (sts (idx + 1 + j)) 1) =
        acc ++ (List.range (s + 1)).map
          (fun j => SingleResult.delivered (sids (idx + j)) (sts (idx + j)) 1) := by
      rw [List.range_succ_eq_map, List.map_cons, List.map_map,
        List.append_assoc]
      simp only [Nat.add_zero, List.singleton_append]
      congr 2
      apply List.map_congr_left
      intro a _
      have e : idx + 1 + a = idx + (a + 1) := by omega
      simp [Function.comp, e]
    rw [e1, e2, e3]

/-! ## Claim C8: terminal failure on a segment aborts the rest -/

/-- On the multi-segment path, `send_sms` runs the segment loop over the
chunks produced by the segmenter. -/
theorem send_sms_multi (tr : Nat → TransportOutcome) (m : List Char)
    (L : Int) (maxR : Nat) (d : ℚ) (segs : List (List Char))
    (hlen : L < (m.length : Int))
    (hsplit : split_long_message m L = Except.ok segs) :
    send_sms false tr m L maxR d =
      Except.ok (sendSegmentsGo false tr maxR d segs.length 1 [] 0 segs) := by
  unfold send_sms
  rw [if_pos (by omega), hsplit]

/-- Claim C8: if a message splits into segments and segment `i` (1-based)
fails terminally while segments `1..i-1` each succeed, `send_sms` returns
the failure dictionary with `segments_sent = i - 1` and failing segment
`i`, keeps the earlier per-segment results, and makes exactly `i`
transport calls — it never attempts a segment after `i` and never resends
the segments already sent. -/
theorem C8_partial_segment_failure (tr : Nat → TransportOutcome)
    (m : List Char) (L : Int) (maxR : Nat) (d : ℚ)
    (segs : List (List Char)) (i : Nat) (sids sts : Nat → String)
    (code stat : Int) (emsg : String) (hR : 1 ≤ maxR)
    (hterm : non_retryable_codes.contains code = true)
    (hlen : L < (m.length : Int))
    (hsplit : split_long_message m L = Except.ok segs)
    (hi1 : 1 ≤ i) (hi2 : i ≤ segs.length)
    (hok : ∀ j, j < i - 1 → tr j = TransportOutcome.ok (sids j) (sts j))
    (hfailc : tr (i - 1) = TransportOutcome.twilioErr code stat emsg) :
    send_sms false tr m L maxR d =
      Except.ok (SmsResult.multiFail (failMsg i segs.length) (i - 1)
        segs.length
        ((List.range (i - 1)).map
          (fun j => SingleResult.delivered (sids j) (sts j) 1) ++
          [SingleResult.failedTerminal emsg code 1]), i) := by
  have h := sendSegments_fail_at tr maxR d segs.length sids sts code stat emsg
    hR hterm (i - 1) segs 1 0 [] (by omega)
    (fun j hj => by simpa using hok j hj) (by simpa using hfailc)
  simp only [Nat.zero_add, List.nil_append] at h
  have e1 : 1 + (i - 1) = i := by omega
  have e2 : i - 1 + 1 = i := by omega
  rw [e1, e2] at h
  rw [send_sms_multi tr m L maxR d segs hlen hsplit, h]

/-- Witness for C8: a 3-segment message whose second segment hits the
terminal opt-out code 21610; segment 1 is delivered, segment 3 is never
attempted (2 transport calls in total). -/
theorem C8_witness :
    send_sms false
        (fun n => if n = 0 then TransportOutcome.ok "SM0" "sent"
          else TransportOutcome.twilioErr 21610 400 "optout")
        (String.toList "aaaaaaa bbbbbbb ccccccc") 20 5 1 =
      Except.ok (SmsResult.multiFail (failMsg 2 3) 1 3
        [SingleResult.delivered "SM0" "sent" 1,
         SingleResult.failedTerminal "optout" 21610 1], 2) :=
  C8_partial_segment_failure _ _ 20 5 1
    [String.toList "[1/3] aaaaaaa", String.toList "[2/3] bbbbbbb",
     String.toList "[3/3] ccccccc"] 2
    (fun _ => "SM0") (fun _ => "sent") 21610 400 "optout"
    (by decide) (by decide) (by decide) (by rfl) (by decide) (by decide)
    (fun j hj => by interval_cases j; rfl) (by rfl)

/-! ## Claim C9: outcome of an all-successful multi-segment send -/

/-- Claim C9 counterexample: a 7-segment message whose second segment needs
2 attempts (all others 1, so the most-retried segment used 2 attempts)
is delivered successfully, but the returned dictionary has no
`attempts_used` key at all — the per-segment attempt counts sit only in
`details`. -/
theorem C9_counterexample :
    ((send_sms false
        (fun i => if i = 1 then TransportOutcome.twilioErr 20429 429 "rate"
          else TransportOutcome.ok "SM" "queued")
        (String.toList "a b c d e f g") 12 5 1).toOption.map
      (fun p => ((resultKeys p.1).contains "attempts_used", smsSuccess p.1,
        (smsDetails p.1).map singleAttempts))) =
      some (false, true, [1, 2, 1, 1, 1, 1, 1]) := by decide

/-- Claim C9 (amended): when every segment of a multi-segment message is
sent successfully (one transport call each), `send_sms` returns the
success dictionary whose `sids` field is the ordered list of per-segment
provider confirmation ids and whose `details` field lists the per-segment
results with their attempt counts; no `attempts_used` aggregate equal to
the most-retried segment's attempts is part of the returned dictionary. -/
theorem C9_all_segments_delivered (tr : Nat → TransportOutcome)
    (m : List Char) (L : Int) (maxR : Nat) (d : ℚ)
    (segs : List (List Char)) (sids sts : Nat → String) (hR : 1 ≤ maxR)
    (hlen : L < (m.length : Int))
    (hsplit : split_long_message m L = Except.ok segs)
    (hok : ∀ j, j < segs.length →
      tr j = TransportOutcome.ok (sids j) (sts j)) :
    send_sms false tr m L maxR d =
      Except.ok (SmsResult.multiOk segs.length segs.length
        ((List.range segs.length).map sids)
        ((List.range segs.length).map
          (fun j => SingleResult.delivered (sids j) (sts j) 1)),
        segs.length) ∧
    "attempts_used" ∉ resultKeys (SmsResult.multiOk segs.length segs.length
        ((List.range segs.length).map sids)
        ((List.range segs.length).map
          (fun j => SingleResult.delivered (sids j) (sts j) 1))) := by
  have h := sendSegments_all_ok tr maxR d segs.length sids sts hR segs 1 0 []
    (fun j hj => by simpa using hok j hj)
  simp only [Nat.zero_add, List.nil_append, List.map_map] at h
  have hmap : (List.range segs.length).map
      (singleSid ∘ fun j => SingleResult.delivered (sids j) (sts j) 1) =
      (List.range segs.length).map sids :=
    List.map_congr_left (fun a _ => rfl)
  rw [hmap] at h
  refine ⟨?_, by simp only [resultKeys]; decide⟩
  rw [send_sms_multi tr m L maxR d segs hlen hsplit, h]

/-- Witness for C9: a 3-segment message with every transport call
succeeding. -/
theorem C9_witness :
    send_sms false (fun _ => TransportOutcome.ok "SM" "q")
        (String.toList "aaaaaaa bbbbbbb ccccccc") 20 5 1 =
      Except.ok (SmsResult.multiOk 3 3 ["SM", "SM", "SM"]
        [SingleResult.delivered "SM" "q" 1, SingleResult.delivered "SM" "q" 1,
         SingleResult.delivered "SM" "q" 1], 3) ∧
    "attempts_used" ∉ resultKeys (SmsResult.multiOk 3 3 ["SM", "SM", "SM"]
        [SingleResult.delivered "SM" "q" 1, SingleResult.delivered "SM" "q" 1,
         SingleResult.delivered "SM" "q" 1]) :=
  C9_all_segments_delivered (fun _ => TransportOutcome.ok "SM" "q")
    (String.toList "aaaaaaa bbbbbbb ccccccc") 20 5 1
    [String.toList "[1/3] aaaaaaa", String.toList "[2/3] bbbbbbb",
     String.toList "[3/3] ccccccc"]
    (fun _ => "SM") (fun _ => "q") (by decide) (by decide) (by rfl)
    (fun j _ => rfl)

/-! ## Claim C5: the bulk coordinator never raises and reports everything -/

/-- `send_sms` returns normally whenever `max_length ≠ 11` (the only
max length at which segmentation can raise). -/
theorem send_sms_total (dry : Bool) (tr : Nat → TransportOutcome)
    (m : List Char) (L : Int) (maxR : Nat) (d : ℚ) (hL : L ≠ 11) :
    ∃ r idx, send_sms dry tr m L maxR d = Except.ok (r, idx) := by
  unfold send_sms
  split_ifs with h
  · obtain ⟨chunks, hc⟩ := split_chunks_total m L hL
    have hsp : split_long_message m L = Except.ok (addMarkers chunks) := by
      unfold split_long_message
      rw [hc]
    rw [hsp]
    exact ⟨_, _, rfl⟩
  · rcases hq : send_single_sms dry tr maxR d 0 with ⟨r, idx, sl⟩
    exact ⟨SmsResult.single r, idx, rfl⟩

/-- The recipient loop of the bulk coordinator: for a service max length
other than 11 it returns normally, with one outcome per recipient in input
order, `successful` counting the successes and `failed` the failures. -/
theorem bulkGo_spec (dry : Bool) (tr : String → Nat → TransportOutcome)
    (m : List Char) (L : Int) (maxR : Nat) (hL : L ≠ 11) :
    ∀ rs : List String, ∃ s f ds,
      bulkGo dry tr m L maxR rs = Except.ok (s, f, ds) ∧
      ds.length = rs.length ∧
      s = ds.countP smsSuccess ∧
      f = ds.countP (fun r => !smsSuccess r) ∧
      ∀ (i : Nat) (h1 : i < rs.length) (h2 : i < ds.length),
        ∃ k, send_sms dry (tr (rs.get ⟨i, h1⟩)) m L maxR 1 =
          Except.ok (ds.get ⟨i, h2⟩, k) := by
  intro rs
  induction rs with
  | nil =>
    exact ⟨0, 0, [], rfl, rfl, rfl, rfl,
      fun i h1 _ => absurd h1 (Nat.not_lt_zero i)⟩
  | cons p rest ih =>
    obtain ⟨r, k, hsend⟩ := send_sms_total dry (tr p) m L maxR 1 hL
    obtain ⟨s, f, ds, hb, hlen, hs, hf, hget⟩ := ih
    refine ⟨if smsSuccess r then s + 1 else s,
      if smsSuccess r then f else f + 1, r :: ds, ?_, by simpa using hlen,
      ?_, ?_, ?_⟩
    · simp only [bulkGo, hsend, hb]
    · rw [List.countP_cons, hs]
      by_cases hr : smsSuccess r = true <;> simp [hr]
    · rw [List.countP_cons, hf]
      by_cases hr : smsSuccess r = true <;> simp [hr]
    · intro i h1 h2
      match i with
      | 0 => exact ⟨k, hsend⟩
      | Nat.succ j =>
        exact hget j (by simpa using h1) (by simpa using h2)

/-- Claim C5: for the service's configured max lengths (120 for `segment`
mode, 1600 for `long` mode), `send_bulk_sms` never raises: it returns a
report whose `total` is the number of recipients, with exactly one
`send_sms` outcome per recipient in input order in `details`, and whose
`successful` and `failed` counters count exactly the per-recipient
outcomes (so one recipient's failure never stops the others from being
processed). -/
theorem C5_bulk_report (dry : Bool) (tr : String → Nat → TransportOutcome)
    (recips : List String) (m : List Char) (L : Int) (maxR : Nat)
    (hL : L = 120 ∨ L = 1600) :
    ∃ rep, send_bulk_sms dry tr recips m L maxR = Except.ok rep ∧
      rep.total = recips.length ∧
      rep.details.length = recips.length ∧
      rep.successful = rep.details.countP smsSuccess ∧
      rep.failed = rep.details.countP (fun r => !smsSuccess r) ∧
      rep.successful + rep.failed = rep.total ∧
      ∀ (i : Nat) (h1 : i < recips.length) (h2 : i < rep.details.length),
        ∃ k, send_sms dry (tr (recips.get ⟨i, h1⟩)) m L maxR 1 =
          Except.ok (rep.details.get ⟨i, h2⟩, k) := by
  have hL11 : L ≠ 11 := by omega
  obtain ⟨s, f, ds, hb, hlen, hs, hf, hget⟩ :=
    bulkGo_spec dry tr m L maxR hL11 recips
  refine ⟨⟨recips.length, s, f, ds⟩, ?_, rfl, hlen, hs, hf, ?_, hget⟩
  · unfold send_bulk_sms
    rw [hb]
  · show s + f = recips.length
    rw [hs, hf, ← hlen]
    have h2 := List.length_eq_countP_add_countP smsSuccess ds
    have hcc : ds.countP (fun r => !smsSuccess r) =
        ds.countP (fun a => decide ¬smsSuccess a = true) :=
      List.countP_congr (fun a _ => by simp)
    omega

/-- Witness for C5: three recipients where the second one's transport
always raises the terminal code 21211 while the others succeed. -/
theorem C5_witness :
    ∃ rep, send_bulk_sms false
        (fun p _ => if p = "+15550002" then
            TransportOutcome.twilioErr 21211 400 "bad"
          else TransportOutcome.ok "SM" "q")
        ["+15550001", "+15550002", "+15550003"] (String.toList "hi") 120 5 =
      Except.ok rep ∧
      rep.total = 3 ∧ rep.details.length = 3 ∧
      rep.successful = rep.details.countP smsSuccess ∧
      rep.failed = rep.details.countP (fun r => !smsSuccess r) ∧
      rep.successful + rep.failed = rep.total ∧
      ∀ (i : Nat) (h1 : i < 3) (h2 : i < rep.details.length),
        ∃ k, send_sms false
          (fun _ => if (["+15550001", "+15550002", "+15550003"].get
              (⟨i, h1⟩ : Fin 3)) = "+15550002" then
              TransportOutcome.twilioErr 21211 400 "bad"
            else TransportOutcome.ok "SM" "q")
          (String.toList "hi") 120 5 1 =
          Except.ok (rep.details.get ⟨i, h2⟩, k) :=
  C5_bulk_report false
    (fun p _ => if p = "+15550002" then
        TransportOutcome.twilioErr 21211 400 "bad"
      else TransportOutcome.ok "SM" "q")
    ["+15550001", "+15550002", "+15550003"] (String.toList "hi") 120 5
    (Or.inl rfl)

/-! ## Claim C3: segment length bound and markers -/

/-- Stripping only removes characters. -/
theorem pyStrip_length_le (s : List Char) : (pyStrip s).length ≤ s.length := by
  unfold pyStrip
  calc ((s.dropWhile isPySpace).reverse.dropWhile isPySpace).reverse.length
      = ((s.dropWhile isPySpace).reverse.dropWhile isPySpace).length :=
        List.length_reverse _
    _ ≤ (s.dropWhile isPySpace).reverse.length :=
        (List.dropWhile_sublist _).length_le
    _ = (s.dropWhile isPySpace).length := List.length_reverse _
    _ ≤ s.length := (List.dropWhile_sublist _).length_le

/-- Every hard slice of a long word has at most `eff` characters. -/
theorem chunkListFuel_length_le :
    ∀ (fuel : Nat) (w : List Char) (eff : Nat),
      ∀ c ∈ chunkListFuel fuel w eff, c.length ≤ eff := by
  intro fuel
  induction fuel with
  | zero => intro w eff c hc; cases w <;> simp [chunkListFuel] at hc
  | succ f ih =>
    intro w eff c hc
    cases w with
    | nil => simp [chunkListFuel] at hc
    | cons x xs =>
      simp only [chunkListFuel] at hc
      rcases List.mem_cons.mp hc with h | h
      · subst h; simp [List.length_take]
      · exact ih _ _ c h

/-- One word-loop step preserves the invariant that every closed chunk and
the current chunk have at most `eff` characters (for `eff ≥ 1`). -/
theorem stepWord_bound (eff : Int) (heff : 1 ≤ eff)
    (chunks chunks1 : List (List Char)) (current current1 w : List Char)
    (hc : ∀ c ∈ chunks, (c.length : Int) ≤ eff)
    (hcur : (current.length : Int) ≤ eff)
    (h : stepWord eff (chunks, current) w = Except.ok (chunks1, current1)) :
    (∀ c ∈ chunks1, (c.length : Int) ≤ eff) ∧
      (current1.length : Int) ≤ eff := by
  have hstrip : ((pyStrip current).length : Int) ≤ eff :=
    le_trans (by exact_mod_cast pyStrip_length_le current) hcur
  have hslice : ∀ c ∈ chunkListFuel w.length w eff.toNat,
      (c.length : Int) ≤ eff := by
    intro c hm
    have := chunkListFuel_length_le w.length w eff.toNat c hm
    have he : ((eff.toNat : Nat) : Int) = eff := Int.toNat_of_nonneg (by omega)
    omega
  unfold stepWord at h
  dsimp only at h
  split_ifs at h with h1 h2 h3 h4 h5 h6 h7 h8
  · omega
  · omega
  · simp only [Except.ok.injEq, Prod.mk.injEq] at h
    obtain ⟨hch, hcu⟩ := h
    subst hch; subst hcu
    refine ⟨?_, by simp; omega⟩
    intro c hmem
    rcases List.mem_append.mp hmem with hm | hm
    · exact hc c hm
    · exact hslice c hm
  · simp only [Except.ok.injEq, Prod.mk.injEq] at h
    obtain ⟨hch, hcu⟩ := h
    subst hch; subst hcu
    refine ⟨?_, by simp; omega⟩
    intro c hmem
    rcases List.mem_append.mp hmem with hm | hm
    · rcases List.mem_append.mp hm with hm2 | hm2
      · exact hc c hm2
      · simp at hm2; subst hm2; exact hstrip
    · exact hslice c hm
  · simp only [Except.ok.injEq, Prod.mk.injEq] at h
    obtain ⟨hch, hcu⟩ := h
    subst hch; subst hcu
    exact ⟨hc, by omega⟩
  · simp only [Except.ok.injEq, Prod.mk.injEq] at h
    obtain ⟨hch, hcu⟩ := h
    subst hch; subst hcu
    exact ⟨hc, by omega⟩
  · simp only [Except.ok.injEq, Prod.mk.injEq] at h
    obtain ⟨hch, hcu⟩ := h
    subst hch; subst hcu
    exact ⟨hc, h8⟩
  · simp only [Except.ok.injEq, Prod.mk.injEq] at h
    obtain ⟨hch, hcu⟩ := h
    subst hch; subst hcu
    refine ⟨?_, by omega⟩
    intro c hmem
    rcases List.mem_append.mp hmem with hm | hm
    · exact hc c hm
    · simp at hm; subst hm; exact hstrip

/-- The word loop preserves the chunk length invariant (for `eff ≥ 1`). -/
theorem splitFold_bound (eff : Int) (heff : 1 ≤ eff) :
    ∀ (ws chunks : List (List Char)) (current : List Char)
      (chunks1 : List (List Char)) (current1 : List Char),
      (∀ c ∈ chunks, (c.length : Int) ≤ eff) →
      (current.length : Int) ≤ eff →
      splitFold eff (chunks, current) ws = Except.ok (chunks1, current1) →
      (∀ c ∈ chunks1, (c.length : Int) ≤ eff) ∧
        (current1.length : Int) ≤ eff := by
  intro ws
  induction ws with
  | nil =>
    intro c cu c1 cu1 hc hcu h
    simp only [splitFold, Except.ok.injEq, Prod.mk.injEq] at h
    obtain ⟨h1, h2⟩ := h
    subst h1; subst h2
    exact ⟨hc, hcu⟩
  | cons w ws ih =>
    intro c cu c1 cu1 hc hcu h
    cases hst : stepWord eff (c, cu) w with
    | error e => rw [splitFold, hst] at h; exact absurd h (by simp)
    | ok st2 =>
      rcases st2 with ⟨c2, cu2⟩
      rw [splitFold, hst] at h
      obtain ⟨hb1, hb2⟩ := stepWord_bound eff heff c c2 cu cu2 w hc hcu hst
      exact ih c2 cu2 c1 cu1 hb1 hb2 h

/-- For a non-positive effective maximum the word loop started empty can
only finish empty (every non-empty word is hard-sliced into nothing, and
only empty words are absorbed). -/
theorem splitFold_nonpos (eff : Int) (heff : eff ≤ 0) :
    ∀ (ws : List (List Char)) (st1 : List (List Char) × List Char),
      splitFold eff ([], []) ws = Except.ok st1 → st1 = ([], []) := by
  intro ws
  induction ws with
  | nil =>
    intro st1 h
    simpa [splitFold] using h.symm
  | cons w ws ih =>
    intro st1 h
    by_cases hw : (w.length : Int) > eff
    · by_cases h0 : eff = 0
      · have hstep : stepWord eff ([], []) w =
            Except.error "ValueError: range() arg 3 must not be zero" := by
          unfold stepWord
          rw [if_pos hw, if_pos h0]
        rw [splitFold, hstep] at h
        exact absurd h (by simp)
      · have hneg : eff < 0 := by omega
        have hstep : stepWord eff ([], []) w = Except.ok ([], []) := by
          unfold stepWord
          rw [if_pos hw, if_neg h0, if_pos hneg]
          simp
        rw [splitFold, hstep] at h
        exact ih st1 h
    · have hwlen : w.length = 0 := by omega
      have hwnil : w = [] := List.length_eq_zero.mp hwlen
      subst hwnil
      rw [splitFold, stepWord_empty_state eff] at h
      exact ih st1 h

/-- The decimal rendering of `n < 10^k` has at most `k` digits. -/
theorem natDigitsAux_length :
    ∀ (fuel n k : Nat), n < 10 ^ k → (natDigitsAux fuel n).length ≤ k := by
  intro fuel
  induction fuel with
  | zero => intro n k _; cases n <;> simp [natDigitsAux]
  | succ f ih =>
    intro n k h
    cases n with
    | zero => simp [natDigitsAux]
    | succ m =>
      simp only [natDigitsAux, List.length_append, List.length_cons,
        List.length_nil]
      have hk : 1 ≤ k := by
        by_contra hk0
        push_neg at hk0
        interval_cases k
        simp at h
      have hdiv : (m + 1) / 10 < 10 ^ (k - 1) := by
        have h10 : 10 ^ k = 10 ^ (k - 1) * 10 := by
          rw [← pow_succ]
          congr 1
          omega
        rw [Nat.div_lt_iff_lt_mul (by norm_num)]
        omega
      have := ih ((m + 1) / 10) (k - 1) hdiv
      omega

/-- A part number up to 999 renders in at most 3 characters. -/
theorem natDigits_length_le (n : Nat) (h : n ≤ 999) :
    (natDigits n).length ≤ 3 := by
  unfold natDigits
  split_ifs with h0
  · simp
  · refine natDigitsAux_length n n 3 ?_
    have : (10 : Nat) ^ 3 = 1000 := by norm_num
    omega

/-- For part counts up to 999 the marker fits in the reserved 11-character
budget. -/
theorem marker_length_le (i total : Nat) (hi : i ≤ 999) (ht : total ≤ 999) :
    (marker i total).length ≤ 11 := by
  have h1 := natDigits_length_le i hi
  have h2 := natDigits_length_le total ht
  simp only [marker, List.length_cons, List.length_append, List.length_nil]
  omega

/-- Adding markers keeps the number of segments. -/
theorem addMarkersGo_length (total : Nat) :
    ∀ (cs : List (List Char)) (i : Nat),
      (addMarkersGo total i cs).length = cs.length := by
  intro cs
  induction cs with
  | nil => intro i; rfl
  | cons c cs ih => intro i; simp [addMarkersGo, ih]

/-- The marker pass keeps the number of segments. -/
theorem addMarkers_length (cs : List (List Char)) :
    (addMarkers cs).length = cs.length := by
  unfold addMarkers
  split_ifs with h
  · exact addMarkersGo_length cs.length cs 0
  · rfl

/-- Position `j` of the marked list is position `j` of the chunk list with
the 1-based marker `[i+j+1/total]` prefixed. -/
theorem addMarkersGo_getq (total : Nat) :
    ∀ (cs : List (List Char)) (i j : Nat),
      (addMarkersGo total i cs).get? j =
        (cs.get? j).map (fun c => marker (i + j + 1) total ++ c) := by
  intro cs
  induction cs with
  | nil => intro i j; simp [addMarkersGo]
  | cons c cs ih =>
    intro i j
    cases j with
    | zero => simp [addMarkersGo]
    | succ j =>
      simp only [addMarkersGo, List.get?_cons_succ]
      rw [ih (i + 1) j]
      have e : i + 1 + j + 1 = i + (j + 1) + 1 := by omega
      rw [e]

/-- Every element of the marked list is a marker-prefixed chunk. -/
theorem addMarkersGo_mem (total : Nat) :
    ∀ (cs : List (List Char)) (i : Nat) (s : List Char),
      s ∈ addMarkersGo total i cs →
      ∃ j c, c ∈ cs ∧ s = marker (i + j + 1) total ++ c ∧ j < cs.length := by
  intro cs
  induction cs with
  | nil => intro i s hs; simp [addMarkersGo] at hs
  | cons c cs ih =>
    intro i s hs
    rcases List.mem_cons.mp hs with h | h
    · exact ⟨0, c, List.mem_cons_self c cs, by simpa using h, by simp⟩
    · obtain ⟨j, c1, hm, he, hj⟩ := ih (i + 1) s h
      refine ⟨j + 1, c1, List.mem_cons_of_mem _ hm, ?_,
        by simp only [List.length_cons]; omega⟩
      rw [he]
      have e : i + 1 + j + 1 = i + (j + 1) + 1 := by omega
      rw [e]

/-- On the long-message path, every chunk produced by the packing loop has
at most `max_length - 11` characters. -/
theorem split_chunks_chunk_bound (m : List Char) (L : Int)
    (chunks : List (List Char)) (h : split_chunks m L = Except.ok chunks)
    (hlong : ¬ (m.length : Int) ≤ L) :
    ∀ c ∈ chunks, (c.length : Int) ≤ L - 11 := by
  unfold split_chunks at h
  rw [if_neg hlong] at h
  by_cases heff : 1 ≤ L - 11
  · cases hfold : splitFold (L - 11) ([], []) (pySplitSpace m) with
    | error e => rw [hfold] at h; exact absurd h (by simp)
    | ok st =>
      rcases st with ⟨cs, cur⟩
      rw [hfold] at h
      simp only [Except.ok.injEq] at h
      subst h
      obtain ⟨hb1, hb2⟩ := splitFold_bound (L - 11) heff (pySplitSpace m)
        [] [] cs cur (by simp) (by simp; omega) hfold
      intro c hc
      unfold finishChunks at hc
      split_ifs at hc with hcur
      · exact hb1 c hc
      · rcases List.mem_append.mp hc with h1 | h1
        · exact hb1 c h1
        · simp at h1; subst h1
          calc ((pyStrip cur).length : Int) ≤ (cur.length : Int) := by
                exact_mod_cast pyStrip_length_le cur
            _ ≤ L - 11 := hb2
  · cases hfold : splitFold (L - 11) ([], []) (pySplitSpace m) with
    | error e => rw [hfold] at h; exact absurd h (by simp)
    | ok st =>
      rw [hfold] at h
      have hst := splitFold_nonpos (L - 11) (by omega) (pySplitSpace m) st hfold
      subst hst
      simp only [Except.ok.injEq] at h
      subst h
      intro c hc
      simp [finishChunks] at hc

/-- Claim C3 (amended): for every ok segmentation the marker structure is
as claimed — markers `[i/total]` (1-based) exactly when more than one
segment results, no marker on a single segment — and the wire-length bound
`len(segment) ≤ max_length` holds whenever at most 999 segments result
(the 11-character budget covers 3-digit part counts only). -/
theorem C3_amended (m : List Char) (L : Int) (chunks : List (List Char))
    (h : split_chunks m L = Except.ok chunks) :
    split_long_message m L = Except.ok (addMarkers chunks) ∧
    (addMarkers chunks).length = chunks.length ∧
    (chunks.length ≤ 1 → addMarkers chunks = chunks) ∧
    (1 < chunks.length → ∀ j : Nat, (addMarkers chunks).get? j =
      (chunks.get? j).map (fun c => marker (j + 1) chunks.length ++ c)) ∧
    (chunks.length ≤ 999 → ∀ s ∈ addMarkers chunks,
      (s.length : Int) ≤ L) := by
  refine ⟨by unfold split_long_message; rw [h], addMarkers_length chunks,
    fun h1 => by unfold addMarkers; rw [if_neg (by omega)],
    fun h1 j => by
      unfold addMarkers
      rw [if_pos h1]
      simpa using addMarkersGo_getq chunks.length chunks 0 j, ?_⟩
  intro hn s hs
  by_cases hshort : (m.length : Int) ≤ L
  · have hck : chunks = [m] := by
      unfold split_chunks at h
      rw [if_pos hshort] at h
      simpa using h.symm
    subst hck
    have hm1 : addMarkers [m] = [m] := by unfold addMarkers; simp
    rw [hm1] at hs
    simp at hs
    subst hs
    exact hshort
  · have hbound := split_chunks_chunk_bound m L chunks h hshort
    by_cases h1 : 1 < chunks.length
    · unfold addMarkers at hs
      rw [if_pos h1] at hs
      obtain ⟨j, c, hcmem, hseq, hj⟩ :=
        addMarkersGo_mem chunks.length chunks 0 s hs
      subst hseq
      have hm := marker_length_le (0 + j + 1) chunks.length (by omega) hn
      have hcb := hbound c hcmem
      simp only [List.length_append]
      push_cast
      omega
    · unfold addMarkers at hs
      rw [if_neg h1] at hs
      have := hbound s hs
      omega

set_option maxRecDepth 40000 in
/-- Claim C3 counterexample: a 1000-character word with `max_length = 12`
hard-slices into 1000 one-character segments; segment 1000 is
`"[1000/1000] a"`, 13 characters, which exceeds `max_length` — the fixed
11-character budget only covers part counts up to 999. -/
theorem C3_counterexample :
    12 < (((split_long_message (List.replicate 1000 'a') 12).toOption.getD
      []).getD 999 []).length := by decide

/-- Witness for C3: a message splitting into three 7-character chunks at
`max_length = 20`. -/
theorem C3_witness :
    split_long_message (String.toList "aaaaaaa bbbbbbb ccccccc") 20 =
      Except.ok (addMarkers [String.toList "aaaaaaa",
        String.toList "bbbbbbb", String.toList "ccccccc"]) ∧
    (addMarkers [String.toList "aaaaaaa", String.toList "bbbbbbb",
      String.toList "ccccccc"]).length =
      [String.toList "aaaaaaa", String.toList "bbbbbbb",
        String.toList "ccccccc"].length ∧
    ([String.toList "aaaaaaa", String.toList "bbbbbbb",
      String.toList "ccccccc"].length ≤ 1 →
      addMarkers [String.toList "aaaaaaa", String.toList "bbbbbbb",
        String.toList "ccccccc"] =
        [String.toList "aaaaaaa", String.toList "bbbbbbb",
          String.toList "ccccccc"]) ∧
    (1 < [String.toList "aaaaaaa", String.toList "bbbbbbb",
      String.toList "ccccccc"].length → ∀ j : Nat,
      (addMarkers [String.toList "aaaaaaa", String.toList "bbbbbbb",
        String.toList "ccccccc"]).get? j =
        ([String.toList "aaaaaaa", String.toList "bbbbbbb",
          String.toList "ccccccc"].get? j).map
          (fun c => marker (j + 1) [String.toList "aaaaaaa",
            String.toList "bbbbbbb", String.toList "ccccccc"].length ++ c)) ∧
    ([String.toList "aaaaaaa", String.toList "bbbbbbb",
      String.toList "ccccccc"].length ≤ 999 →
      ∀ s ∈ addMarkers [String.toList "aaaaaaa", String.toList "bbbbbbb",
        String.toList "ccccccc"], (s.length : Int) ≤ 20) :=
  C3_amended (String.toList "aaaaaaa bbbbbbb ccccccc") 20
    [String.toList "aaaaaaa", String.toList "bbbbbbb",
      String.toList "ccccccc"] (by rfl)

/-! ## Claim C2: segmentation round-trip on the word sequence -/

/-- Splitting distributes over a space: the words of `a ++ " " ++ b` are
the words of `a` followed by the words of `b` (auxiliary form). -/
theorem splitSpAux_append_space (b : List Char) :
    ∀ a : List Char, splitSpAux (a ++ ' ' :: b) =
      ((splitSpAux a).1, (splitSpAux a).2 ++ pySplitSpace b) := by
  intro a
  induction a with
  | nil => simp [splitSpAux, pySplitSpace]
  | cons c a ih =>
    by_cases hc : c = ' '
    · subst hc
      simp [splitSpAux, ih]
    · simp [splitSpAux, hc, ih]

/-- Python split distributes over a separating space. -/
theorem pySplitSpace_append_space (a b : List Char) :
    pySplitSpace (a ++ ' ' :: b) = pySplitSpace a ++ pySplitSpace b := by
  simp [pySplitSpace, splitSpAux_append_space b a]

/-- The word sequence distributes over a separating space. -/
theorem wordsOf_append_space (a b : List Char) :
    wordsOf (a ++ ' ' :: b) = wordsOf a ++ wordsOf b := by
  unfold wordsOf
  rw [pySplitSpace_append_space, List.filter_append]

/-- The empty string has no words. -/
theorem wordsOf_nil : wordsOf [] = [] := rfl

/-- A leading space does not change the word sequence. -/
theorem wordsOf_cons_space (s : List Char) :
    wordsOf (' ' :: s) = wordsOf s := by
  unfold wordsOf
  rw [pySplitSpace_cons_space]
  simp [List.filter]

/-- A space-free string is a single word under Python split (auxiliary
form). -/
theorem splitSpAux_no_space :
    ∀ (w : List Char), (∀ c ∈ w, ¬ c = ' ') → splitSpAux w = (w, []) := by
  intro w
  induction w with
  | nil => intro _; rfl
  | cons c ws ih =>
    intro h
    have hc : ¬ c = ' ' := h c (List.mem_cons_self c ws)
    simp [splitSpAux, hc, ih (fun x hx => h x (List.mem_cons_of_mem _ hx))]

/-- The word sequence of a space-free string is the string itself (or
nothing, when it is empty). -/
theorem wordsOf_word (w : List Char) (h : ∀ c ∈ w, ¬ c = ' ') :
    wordsOf w = if w.isEmpty then [] else [w] := by
  unfold wordsOf pySplitSpace
  rw [splitSpAux_no_space w h]
  by_cases hw : w.isEmpty <;> simp [List.filter, hw]

/-- An all-space string has no words. -/
theorem wordsOf_all_space :
    ∀ (u : List Char), (∀ c ∈ u, c = ' ') → wordsOf u = [] := by
  intro u
  induction u with
  | nil => intro _; rfl
  | cons c u ih =>
    intro h
    have hc : c = ' ' := h c (List.mem_cons_self c u)
    subst hc
    rw [wordsOf_cons_space]
    exact ih (fun x hx => h x (List.mem_cons_of_mem _ hx))

/-- Trailing spaces do not change the word sequence. -/
theorem wordsOf_append_all_space (t u : List Char)
    (h : ∀ c ∈ u, c = ' ') : wordsOf (t ++ u) = wordsOf t := by
  cases u with
  | nil => simp
  | cons c u =>
    have hc : c = ' ' := h c (List.mem_cons_self c u)
    subst hc
    rw [wordsOf_append_space,
      wordsOf_all_space u (fun x hx => h x (List.mem_cons_of_mem _ hx))]
    simp

/-- Leading spaces do not change the word sequence. -/
theorem wordsOf_all_space_append :
    ∀ (u : List Char), (∀ c ∈ u, c = ' ') →
      ∀ t, wordsOf (u ++ t) = wordsOf t := by
  intro u
  induction u with
  | nil => intro _ t; rfl
  | cons c u ih =>
    intro h t
    have hc : c = ' ' := h c (List.mem_cons_self c u)
    subst hc
    show wordsOf (' ' :: (u ++ t)) = wordsOf t
    rw [wordsOf_cons_space]
    exact ih (fun x hx => h x (List.mem_cons_of_mem _ hx)) t

/-- Dropping leading whitespace does not change the word sequence of a
string whose only whitespace is plain spaces. -/
theorem wordsOf_dropWhile_space :
    ∀ (s : List Char), spacey s →
      wordsOf (s.dropWhile isPySpace) = wordsOf s := by
  intro s
  induction s with
  | nil => intro _; rfl
  | cons c s ih =>
    intro h
    by_cases hc : isPySpace c = true
    · have hsp : c = ' ' := h c (List.mem_cons_self c s) hc
      subst hsp
      rw [List.dropWhile_cons]
      simp only [hc, if_true]
      rw [wordsOf_cons_space]
      exact ih (fun x hx hpx => h x (List.mem_cons_of_mem _ hx) hpx)
    · rw [List.dropWhile_cons]
      simp [hc]

/-- Python `strip()` does not change the word sequence of a string whose
only whitespace is plain spaces. -/
theorem wordsOf_pyStrip (s : List Char) (h : spacey s) :
    wordsOf (pyStrip s) = wordsOf s := by
  unfold pyStrip
  set t := s.dropWhile isPySpace with ht
  have hts : spacey t := fun c hc hpc =>
    h c ((List.dropWhile_sublist _).mem hc) hpc
  have h1 : wordsOf t = wordsOf s := wordsOf_dropWhile_space s h
  have hdec : t = (t.reverse.dropWhile isPySpace).reverse ++
      (t.reverse.takeWhile isPySpace).reverse := by
    have e := List.takeWhile_append_dropWhile isPySpace t.reverse
    calc t = t.reverse.reverse := (List.reverse_reverse t).symm
      _ = (t.reverse.takeWhile isPySpace ++
            t.reverse.dropWhile isPySpace).reverse := by rw [e]
      _ = (t.reverse.dropWhile isPySpace).reverse ++
            (t.reverse.takeWhile isPySpace).reverse :=
          List.reverse_append _ _
  have hu : ∀ c ∈ (t.reverse.takeWhile isPySpace).reverse, c = ' ' := by
    intro c hc
    have hp : isPySpace c = true :=
      List.mem_takeWhile_imp (List.mem_reverse.mp hc)
    have hmem : c ∈ t := by
      rw [hdec]
      exact List.mem_append_right _ hc
    exact hts c hmem hp
  have h2 : wordsOf t =
      wordsOf ((t.reverse.dropWhile isPySpace).reverse) := by
    conv_lhs => rw [hdec]
    exact wordsOf_append_all_space _ _ hu
  rw [← h2, h1]

/-- The word sequence of a space-join is the concatenation of the word
sequences. -/
theorem wordsOf_joinWords :
    ∀ l : List (List Char),
      wordsOf (joinWords l) = (l.map wordsOf).flatten := by
  intro l
  induction l with
  | nil => rfl
  | cons w ws ih =>
    cases ws with
    | nil => simp [joinWords]
    | cons x xs =>
      show wordsOf (w ++ ' ' :: joinWords (x :: xs)) = _
      rw [wordsOf_append_space, ih]
      simp

/-- Every character of every word of a split string belongs to the string
and is not a space. -/
theorem pySplitSpace_mem :
    ∀ (s w : List Char), w ∈ pySplitSpace s →
      ∀ c ∈ w, c ∈ s ∧ ¬ c = ' ' := by
  intro s
  induction s with
  | nil =>
    intro w hw c hc
    simp [pySplitSpace, splitSpAux] at hw
    subst hw
    simp at hc
  | cons a s ih =>
    intro w hw c hc
    by_cases ha : a = ' '
    · subst ha
      rw [pySplitSpace_cons_space] at hw
      rcases List.mem_cons.mp hw with h1 | h1
      · subst h1; simp at hc
      · obtain ⟨h2, h3⟩ := ih w h1 c hc
        exact ⟨List.mem_cons_of_mem _ h2, h3⟩
    · have hshape : pySplitSpace (a :: s) =
          (a :: (splitSpAux s).1) :: (splitSpAux s).2 := by
        simp [pySplitSpace, splitSpAux, ha]
      rw [hshape] at hw
      rcases List.mem_cons.mp hw with h1 | h1
      · subst h1
        rcases List.mem_cons.mp hc with h2 | h2
        · exact ⟨by rw [h2]; exact List.mem_cons_self a s,
            by rw [h2]; exact ha⟩
        · have hmem : (splitSpAux s).1 ∈ pySplitSpace s :=
            List.mem_cons_self _ _
          obtain ⟨h3, h4⟩ := ih (splitSpAux s).1 hmem c h2
          exact ⟨List.mem_cons_of_mem _ h3, h4⟩
      · have hmem : w ∈ pySplitSpace s := List.mem_cons_of_mem _ h1
        obtain ⟨h3, h4⟩ := ih w hmem c hc
        exact ⟨List.mem_cons_of_mem _ h3, h4⟩

/-- For space-free words, flattening the per-word word sequences is the
list of non-empty words. -/
theorem flatten_map_wordsOf :
    ∀ (ws : List (List Char)), (∀ w ∈ ws, ∀ c ∈ w, ¬ c = ' ') →
      (ws.map wordsOf).flatten = ws.filter (fun w => !w.isEmpty) := by
  intro ws
  induction ws with
  | nil => intro _; rfl
  | cons w ws ih =>
    intro h
    have hw := wordsOf_word w (h w (List.mem_cons_self w ws))
    simp only [List.map_cons, List.flatten_cons, List.filter_cons]
    rw [hw, ih (fun x hx => h x (List.mem_cons_of_mem _ hx))]
    by_cases he : w.isEmpty <;> simp [he]

/-- The word loop preserves the word sequence: when every word is
whitespace-free and fits in the effective maximum, the loop never errors,
the running chunk stays space-only-whitespace, and the words of the closed
chunks plus the running chunk are exactly the words consumed so far. -/
theorem splitFold_wordsOf (eff : Int) :
    ∀ (ws chunks : List (List Char)) (current : List Char),
      (∀ w ∈ ws, (∀ c ∈ w, isPySpace c = false) ∧ (w.length : Int) ≤ eff) →
      spacey current →
      ∃ chunks1 current1,
        splitFold eff (chunks, current) ws =
          Except.ok (chunks1, current1) ∧
        spacey current1 ∧
        (chunks1.map wordsOf).flatten ++ wordsOf current1 =
          (chunks.map wordsOf).flatten ++ wordsOf current ++
            (ws.map wordsOf).flatten := by
  intro ws
  induction ws with
  | nil =>
    intro chunks current _ hsp
    exact ⟨chunks, current, rfl, hsp, by simp⟩
  | cons w ws ih =>
    intro chunks current hws hsp
    obtain ⟨hwclean, hwlen⟩ := hws w (List.mem_cons_self w ws)
    have hws2 := fun x hx => hws x (List.mem_cons_of_mem w hx)
    have hwsp : spacey w := fun c hc hpc => by
      rw [hwclean c hc] at hpc
      exact absurd hpc (by simp)
    have hnotlong : ¬ ((w.length : Int) > eff) := by omega
    by_cases hcur : current.isEmpty = true
    · have hcnil : current = [] := List.isEmpty_iff.mp hcur
      subst hcnil
      have hstep : stepWord eff (chunks, []) w = Except.ok (chunks, w) := by
        unfold stepWord
        rw [if_neg hnotlong]
        dsimp only
        simp only [List.isEmpty_nil, if_true]
        rw [if_pos hwlen]
      obtain ⟨c1, u1, hf, hs1, he1⟩ := ih chunks w hws2 hwsp
      refine ⟨c1, u1, ?_, hs1, ?_⟩
      · rw [splitFold, hstep]; exact hf
      · rw [he1]
        simp only [wordsOf_nil, List.map_cons, List.flatten_cons,
          List.append_nil, List.append_assoc]
    · have hcf : current.isEmpty = false := by
        cases h : current.isEmpty
        · rfl
        · exact absurd h hcur
      by_cases hfit : ((current ++ ' ' :: w).length : Int) ≤ eff
      · have hstep : stepWord eff (chunks, current) w =
            Except.ok (chunks, current ++ ' ' :: w) := by
          unfold stepWord
          rw [if_neg hnotlong]
          dsimp only
          simp only [hcf, Bool.false_eq_true, if_false]
          rw [if_pos hfit]
        have hsp2 : spacey (current ++ ' ' :: w) := by
          intro c hc hpc
          rcases List.mem_append.mp hc with h1 | h1
          · exact hsp c h1 hpc
          · rcases List.mem_cons.mp h1 with h2 | h2
            · exact h2
            · exact hwsp c h2 hpc
        obtain ⟨c1, u1, hf, hs1, he1⟩ := ih chunks (current ++ ' ' :: w)
          hws2 hsp2
        refine ⟨c1, u1, ?_, hs1, ?_⟩
        · rw [splitFold, hstep]; exact hf
        · rw [he1, wordsOf_append_space]
          simp only [List.map_cons, List.flatten_cons, List.append_assoc]
      · have hstep : stepWord eff (chunks, current) w =
            Except.ok (chunks ++ [pyStrip current], w) := by
          unfold stepWord
          rw [if_neg hnotlong]
          dsimp only
          simp only [hcf, Bool.false_eq_true, if_false]
          rw [if_neg hfit]
        obtain ⟨c1, u1, hf, hs1, he1⟩ := ih (chunks ++ [pyStrip current]) w
          hws2 hwsp
        refine ⟨c1, u1, ?_, hs1, ?_⟩
        · rw [splitFold, hstep]; exact hf
        · rw [he1, List.map_append, List.flatten_append]
          simp only [List.map_cons, List.map_nil, List.flatten_cons,
            List.flatten_nil, List.append_nil, List.append_assoc]
          rw [wordsOf_pyStrip current hsp]

/-- Claim C2 (amended): for limits `L ≥ 12` (so that the effective maximum
`L - 11` is positive), messages whose only whitespace is plain spaces and
whose words all fit in `L - 11` characters, segmentation succeeds and
joining the chunk bodies (the segments with their markers stripped) with
single spaces reproduces the message's word sequence — no content is
dropped.  (For `L ≤ 11` content can be dropped wholesale, and a word
longer than `L - 11` is hard-sliced, which inserts word breaks.) -/
theorem C2_amended (m : List Char) (L : Int) (hL : 12 ≤ L)
    (hw : ∀ w ∈ pySplitSpace m, (w.length : Int) ≤ L - 11)
    (hc : ∀ c ∈ m, isPySpace c = true → c = ' ') :
    ∃ chunks, split_chunks m L = Except.ok chunks ∧
      split_long_message m L = Except.ok (addMarkers chunks) ∧
      wordsOf (joinWords chunks) = wordsOf m := by
  by_cases hshort : (m.length : Int) ≤ L
  · have h1 : split_chunks m L = Except.ok [m] := by
      unfold split_chunks
      rw [if_pos hshort]
    exact ⟨[m], h1, by unfold split_long_message; rw [h1], rfl⟩
  · have hclean : ∀ w ∈ pySplitSpace m, ∀ c ∈ w, isPySpace c = false := by
      intro w hwm c hcw
      obtain ⟨hcm, hcsp⟩ := pySplitSpace_mem m w hwm c hcw
      cases hp : isPySpace c
      · rfl
      · exact absurd (hc c hcm hp) hcsp
    obtain ⟨chunks1, current1, hfold, hsp1, heq⟩ :=
      splitFold_wordsOf (L - 11) (pySplitSpace m) [] []
        (fun w hwm => ⟨hclean w hwm, hw w hwm⟩)
        (fun c hc2 => absurd hc2 (List.not_mem_nil c))
    have hchunks : split_chunks m L =
        Except.ok (finishChunks (chunks1, current1)) := by
      unfold split_chunks
      rw [if_neg hshort, hfold]
    refine ⟨finishChunks (chunks1, current1), hchunks,
      by unfold split_long_message; rw [hchunks], ?_⟩
    have hwords_m : ((pySplitSpace m).map wordsOf).flatten = wordsOf m := by
      rw [flatten_map_wordsOf (pySplitSpace m)
        (fun w hwm c hcw => (pySplitSpace_mem m w hwm c hcw).2)]
      rfl
    simp only [List.map_nil, List.flatten_nil, wordsOf_nil,
      List.nil_append] at heq
    rw [wordsOf_joinWords]
    unfold finishChunks
    dsimp only
    split_ifs with hemp
    · have hc1 : current1 = [] := List.isEmpty_iff.mp hemp
      rw [hc1, wordsOf_nil, List.append_nil] at heq
      rw [heq, hwords_m]
    · rw [List.map_append, List.flatten_append]
      simp only [List.map_cons, List.map_nil, List.flatten_cons,
        List.flatten_nil, List.append_nil]
      rw [wordsOf_pyStrip current1 hsp1, heq, hwords_m]

/-- Claim C2 counterexample: at limit 1 the message `"ab"` (longer than
the limit) is segmented into the empty list — its content is silently
dropped, so joining the (zero) segment bodies does not reproduce the word
sequence `["ab"]`. -/
theorem C2_counterexample :
    split_long_message ['a', 'b'] 1 = Except.ok [] ∧
    wordsOf (joinWords []) = [] ∧
    wordsOf ['a', 'b'] = [['a', 'b']] := ⟨rfl, rfl, rfl⟩

/-- Witness for C2: `"aaa bbb ccc ddd"` at limit 14 (effective maximum 3)
splits into four chunks whose space-joined bodies carry the original word
sequence. -/
theorem C2_witness :
    ∃ chunks,
      split_chunks (String.toList "aaa bbb ccc ddd") 14 =
        Except.ok chunks ∧
      split_long_message (String.toList "aaa bbb ccc ddd") 14 =
        Except.ok (addMarkers chunks) ∧
      wordsOf (joinWords chunks) = wordsOf (String.toList "aaa bbb ccc ddd") :=
  C2_amended (String.toList "aaa bbb ccc ddd") 14 (by decide)
    (by decide) (by decide)

end SmsSpec
